import Mathlib

/-!
Verification of the sound ring buffer in `soundbuf.cc` (synaesthesia).

The module keeps a fixed ring `ring[RING_SIZE]` of samples, a write cursor
`ring_write`, a pending counter `ring_has` (an `unsigned int`, so arithmetic
is modulo 2^32) and an edge-triggered flag `signalled`.  `sndbuf_store`
copies an incoming batch into the ring (newest-wins on overrun) and signals
the condition variable when at least `MIN_NEW_SAMPLES = RING_SIZE/2` samples
are pending and no signal is outstanding; `getNextFragment` blocks until
signalled, linearises the ring into the global `data` buffer and resets the
pending counter.

The embedding below is parameterised by the capacity `C` (`RING_SIZE =
NumSamples*2` in the source; `NumSamples` comes from a header that is not
part of this module, so the capacity is kept abstract).  Samples
(`sampleType`) are modelled as `Int`; `memcpy` into the ring is modelled by
the element-wise `copyAt`.  Blocking of `getNextFragment` is modelled by
returning `none` while `signalled` is false; the `Bool` returned by
`sndbuf_store` records whether `SDL_CondSignal` was called during that call.
-/

namespace Soundbuf

/-- modulus of C `unsigned int` arithmetic (the type of `ring_has`). -/
def UINT_MOD : Nat := 2 ^ 32

/-- wake threshold `MIN_NEW_SAMPLES = RING_SIZE / 2` from `soundbuf.cc`. -/
def MIN_NEW_SAMPLES (C : Nat) : Nat := C / 2

/-- mutable state of the module: the ring storage, the write cursor, the
pending-sample counter and the edge-triggered signal flag. -/
structure SndBuf where
  ring : List Int
  ring_write : Nat
  ring_has : Nat
  signalled : Bool
deriving Repr, DecidableEq

/-- initial state: the statics of `soundbuf.cc` are zero-initialised
(`ring` is all zeros, `ring_write = 0`, `ring_has = 0`, `signalled = 0`). -/
def sndbuf_init (C : Nat) : SndBuf :=
  { ring := List.replicate C 0, ring_write := 0, ring_has := 0, signalled := false }

/-- model of `memcpy(&ring[dst], src, len)`: write the elements of `src`
into consecutive positions of `l` starting at index `dst`. -/
def copyAt : List Int → Nat → List Int → List Int
  | l, _, [] => l
  | l, dst, x :: xs => copyAt (l.set dst x) (dst + 1) xs

/-- `sndbuf_store(input, len)` from `soundbuf.cc`.  Returns the new state
together with a `Bool` telling whether `SDL_CondSignal` was called.
The three sub-branches of the `len < RING_SIZE` case mirror the source:
`remain > len` (no wrap), `remain == len` (exact fill, cursor resets to 0),
and `remain < len` (wrapped copy of the tail at index 0 first). -/
def sndbuf_store (C : Nat) (s : SndBuf) (input : List Int) : SndBuf × Bool :=
  let len := input.length
  let s₁ : SndBuf :=
    if C ≤ len then
      { s with ring := copyAt s.ring 0 ((input.drop (len - C)).take C),
               ring_write := 0 }
    else
      let remain₀ := C - s.ring_write
      if len < remain₀ then
        { s with ring := copyAt s.ring s.ring_write (input.take len),
                 ring_write := s.ring_write + len }
      else if remain₀ = len then
        { s with ring := copyAt s.ring s.ring_write (input.take remain₀),
                 ring_write := 0 }
      else
        { s with ring := copyAt (copyAt s.ring 0 ((input.drop remain₀).take (len - remain₀)))
                   s.ring_write (input.take remain₀),
                 ring_write := len - remain₀ }
  let has := (s₁.ring_has + len) % UINT_MOD
  let wake := decide (MIN_NEW_SAMPLES C ≤ has) && !s.signalled
  ({ s₁ with ring_has := has, signalled := s.signalled || wake }, wake)

/-- the ring linearised oldest-to-newest from the write cursor:
`ring[ring_write..C) ++ ring[0..ring_write)`. -/
def drainData (s : SndBuf) : List Int :=
  s.ring.drop s.ring_write ++ s.ring.take s.ring_write

/-- `getNextFragment()` from `soundbuf.cc`.  `none` models the consumer
blocked on the condition variable (`signalled` still 0).  On success it
returns the filled `data` buffer, the new state (`signalled = 0`,
`ring_has = 0`) and the returned count `ring_had`.  `data` is the previous
content of the global destination buffer the source `memcpy`s into. -/
def getNextFragment (C : Nat) (s : SndBuf) (data : List Int) :
    Option (List Int × SndBuf × Nat) :=
  if s.signalled then
    let chunk1 := C - s.ring_write
    let d₁ := copyAt data 0 ((s.ring.drop s.ring_write).take chunk1)
    let d₂ := if 0 < s.ring_write then copyAt d₁ chunk1 (s.ring.take s.ring_write) else d₁
    some (d₂,
      { ring := s.ring, ring_write := s.ring_write, ring_has := 0, signalled := false },
      s.ring_has)
  else none

/-- run a sequence of `sndbuf_store` calls in order. -/
def storeAll (C : Nat) (s : SndBuf) (batches : List (List Int)) : SndBuf :=
  batches.foldl (fun t b => (sndbuf_store C t b).1) s

/-- run a sequence of `sndbuf_store` calls, also counting how many of them
called `SDL_CondSignal`. -/
def storeRun (C : Nat) (s : SndBuf) (batches : List (List Int)) : SndBuf × Nat :=
  batches.foldl
    (fun p b =>
      ((sndbuf_store C p.1 b).1, p.2 + (if (sndbuf_store C p.1 b).2 then 1 else 0)))
    (s, 0)

/-- the last `n` elements of a list (all of it when it is shorter). -/
def lastN (n : Nat) (l : List Int) : List Int := l.drop (l.length - n)

/-- bounds-checked `memcpy` model: fails iff some destination index is out
of range. -/
def copyAtChecked : List Int → Nat → List Int → Option (List Int)
  | l, _, [] => some l
  | l, dst, x :: xs =>
    if dst < l.length then copyAtChecked (l.set dst x) (dst + 1) xs else none

/-- bounds-checked read of `cnt` elements starting at `off`: fails iff the
range `[off, off+cnt)` is not inside the list. -/
def readSlice (l : List Int) (off cnt : Nat) : Option (List Int) :=
  if off + cnt ≤ l.length then some ((l.drop off).take cnt) else none

/-- `sndbuf_store` with every source read and ring write bounds-checked;
`none` marks an out-of-range access. -/
def sndbuf_storeChecked (C : Nat) (s : SndBuf) (input : List Int) :
    Option (SndBuf × Bool) :=
  let len := input.length
  let step : Option SndBuf :=
    if C ≤ len then do
      let src ← readSlice input (len - C) C
      let r ← copyAtChecked s.ring 0 src
      pure { s with ring := r, ring_write := 0 }
    else
      let remain₀ := C - s.ring_write
      if len < remain₀ then do
        let src ← readSlice input 0 len
        let r ← copyAtChecked s.ring s.ring_write src
        pure { s with ring := r, ring_write := s.ring_write + len }
      else if remain₀ = len then do
        let src ← readSlice input 0 remain₀
        let r ← copyAtChecked s.ring s.ring_write src
        pure { s with ring := r, ring_write := 0 }
      else do
        let src₁ ← readSlice input remain₀ (len - remain₀)
        let r₁ ← copyAtChecked s.ring 0 src₁
        let src₂ ← readSlice input 0 remain₀
        let r₂ ← copyAtChecked r₁ s.ring_write src₂
        pure { s with ring := r₂, ring_write := len - remain₀ }
  step.map fun s₁ =>
    let has := (s₁.ring_has + len) % UINT_MOD
    let wake := decide (MIN_NEW_SAMPLES C ≤ has) && !s.signalled
    ({ s₁ with ring_has := has, signalled := s.signalled || wake }, wake)

/-- `getNextFragment` with every ring read and `data` write bounds-checked. -/
def getNextFragmentChecked (C : Nat) (s : SndBuf) (data : List Int) :
    Option (List Int × SndBuf × Nat) :=
  if s.signalled then do
    let chunk1 := C - s.ring_write
    let src₁ ← readSlice s.ring s.ring_write chunk1
    let d₁ ← copyAtChecked data 0 src₁
    let d₂ ←
      if 0 < s.ring_write then do
        let src₂ ← readSlice s.ring 0 s.ring_write
        copyAtChecked d₁ chunk1 src₂
      else pure d₁
    pure (d₂,
      { ring := s.ring, ring_write := s.ring_write, ring_has := 0, signalled := false },
      s.ring_has)
  else none

/-- states reachable from the initial state by producer (`sndbuf_store`) and
consumer (`getNextFragment`) steps; the consumer step only fires when the
channel is signalled (otherwise the call blocks). -/
inductive Reachable (C : Nat) : SndBuf → Prop where
  | init : Reachable C (sndbuf_init C)
  | store (s : SndBuf) (input : List Int) :
      Reachable C s → Reachable C (sndbuf_store C s input).1
  | drain (s : SndBuf) (data frag : List Int) (s' : SndBuf) (cnt : Nat) :
      Reachable C s → getNextFragment C s data = some (frag, s', cnt) →
      Reachable C s'

/-! ### Basic lemmas about the `memcpy` model -/

/-- `copyAt` never changes the length of the destination. -/
theorem copyAt_length (src : List Int) : ∀ (l : List Int) (dst : Nat),
    (copyAt l dst src).length = l.length := by
  induction src with
  | nil => intro l dst; rfl
  | cons x xs ih =>
    intro l dst
    simp only [copyAt, ih, List.length_set]

/-- pointwise description of `copyAt`: position `k` holds `src[k - dst]` when
`k` lies in the (in-range part of the) destination window, and is untouched
otherwise. -/
theorem copyAt_getElem? (src : List Int) : ∀ (l : List Int) (dst k : Nat),
    (copyAt l dst src)[k]? =
      if dst ≤ k ∧ k < dst + src.length ∧ k < l.length then src[k - dst]?
      else l[k]? := by
  induction src with
  | nil =>
    intro l dst k
    simp only [copyAt, List.length_nil]
    rw [if_neg (by omega)]
  | cons x xs ih =>
    intro l dst k
    simp only [copyAt, List.length_cons]
    rw [ih, List.getElem?_set]
    simp only [List.length_set]
    by_cases hA : dst + 1 ≤ k ∧ k < dst + 1 + xs.length ∧ k < l.length
    · rw [if_pos hA,
        if_pos (show dst ≤ k ∧ k < dst + (xs.length + 1) ∧ k < l.length by omega)]
      have hk : k - dst = (k - (dst + 1)) + 1 := by omega
      rw [hk, List.getElem?_cons_succ]
    · rw [if_neg hA]
      by_cases hB : dst = k
      · rw [if_pos hB]
        by_cases hC : dst < l.length
        · rw [if_pos hC,
            if_pos (show dst ≤ k ∧ k < dst + (xs.length + 1) ∧ k < l.length by omega)]
          subst hB
          simp
        · rw [if_neg hC,
            if_neg (show ¬(dst ≤ k ∧ k < dst + (xs.length + 1) ∧ k < l.length) by omega)]
          exact (List.getElem?_eq_none (by omega)).symm
      · rw [if_neg hB,
          if_neg (show ¬(dst ≤ k ∧ k < dst + (xs.length + 1) ∧ k < l.length) by omega)]

/-- arithmetic helper: walking `C - w` forward from `(w + a) % C` lands on
`a % C`. -/
theorem mod_shift (C w a : Nat) (hw : w < C) :
    ((w + a) % C + C - w) % C = a % C := by
  have h1 : (w + a) % C + C - w = (w + a) % C + (C - w) := by omega
  have h2 : w + a + (C - w) = a + C := by omega
  rw [h1, Nat.mod_add_mod, h2, Nat.add_mod_right]

/-! ### Field-level description of `sndbuf_store` -/

/-- `ring_has` always becomes `(ring_has + len) % 2^32` (unsigned add). -/
theorem sndbuf_store_ring_has (C : Nat) (s : SndBuf) (input : List Int) :
    (sndbuf_store C s input).1.ring_has = (s.ring_has + input.length) % UINT_MOD := by
  simp only [sndbuf_store]
  split_ifs <;> rfl

/-- the signal flag after a store: stays set, or becomes set exactly when the
updated pending count reaches the threshold. -/
theorem sndbuf_store_signalled (C : Nat) (s : SndBuf) (input : List Int) :
    (sndbuf_store C s input).1.signalled =
      (s.signalled || decide (MIN_NEW_SAMPLES C ≤ (s.ring_has + input.length) % UINT_MOD)) := by
  simp only [sndbuf_store]
  split_ifs <;> (cases s.signalled <;> simp)

/-- the condition variable is signalled exactly when the updated pending
count reaches the threshold while no signal is outstanding. -/
theorem sndbuf_store_wake (C : Nat) (s : SndBuf) (input : List Int) :
    (sndbuf_store C s input).2 =
      (decide (MIN_NEW_SAMPLES C ≤ (s.ring_has + input.length) % UINT_MOD) && !s.signalled) := by
  simp only [sndbuf_store]
  split_ifs <;> rfl

/-- storing never changes the length of the ring. -/
theorem sndbuf_store_ring_length (C : Nat) (s : SndBuf) (input : List Int) :
    (sndbuf_store C s input).1.ring.length = s.ring.length := by
  simp only [sndbuf_store]
  split_ifs <;> simp [copyAt_length]

/-- the write cursor stays a valid ring index. -/
theorem sndbuf_store_ring_write_lt (C : Nat) (s : SndBuf) (input : List Int)
    (hC : 0 < C) (hw : s.ring_write < C) :
    (sndbuf_store C s input).1.ring_write < C := by
  simp only [sndbuf_store]
  split_ifs <;> simp <;> omega

/-- in the normal case the new write cursor is `(ring_write + len) % C`. -/
theorem sndbuf_store_ring_write (C : Nat) (s : SndBuf) (input : List Int)
    (hw : s.ring_write < C) (hlen : input.length < C) :
    (sndbuf_store C s input).1.ring_write = (s.ring_write + input.length) % C := by
  simp only [sndbuf_store]
  split_ifs with h1 h2 h3
  · omega
  · show s.ring_write + input.length = _
    rw [Nat.mod_eq_of_lt (by omega)]
  · show 0 = _
    have hc : s.ring_write + input.length = C := by omega
    rw [hc, Nat.mod_self]
  · show input.length - (C - s.ring_write) = _
    rw [Nat.mod_eq_sub_mod (by omega), Nat.mod_eq_of_lt (by omega)]
    omega

/-- in the overrun case the write cursor resets to 0. -/
theorem sndbuf_store_ring_write_overrun (C : Nat) (s : SndBuf) (input : List Int)
    (hlen : C ≤ input.length) :
    (sndbuf_store C s input).1.ring_write = 0 := by
  simp only [sndbuf_store]
  rw [if_pos hlen]

/-- the ring after a store, branch by branch, as `memcpy`s. -/
theorem sndbuf_store_ring (C : Nat) (s : SndBuf) (input : List Int) :
    (sndbuf_store C s input).1.ring =
      if C ≤ input.length then
        copyAt s.ring 0 ((input.drop (input.length - C)).take C)
      else if input.length < C - s.ring_write then
        copyAt s.ring s.ring_write (input.take input.length)
      else if C - s.ring_write = input.length then
        copyAt s.ring s.ring_write (input.take (C - s.ring_write))
      else
        copyAt (copyAt s.ring 0 ((input.drop (C - s.ring_write)).take
          (input.length - (C - s.ring_write)))) s.ring_write
          (input.take (C - s.ring_write)) := by
  simp only [sndbuf_store]
  split_ifs <;> rfl

/-- pointwise description of the ring after a normal-case store: slot `k`
holds `input[j]` where `j = (k + C - ring_write) % C` is the distance of `k`
from the write cursor, provided `j < len`; all other slots are unchanged. -/
theorem sndbuf_store_ring_getElem? (C : Nat) (s : SndBuf) (input : List Int)
    (hr : s.ring.length = C) (hw : s.ring_write < C)
    (hlen : input.length < C) (k : Nat) (hk : k < C) :
    (sndbuf_store C s input).1.ring[k]? =
      if (k + C - s.ring_write) % C < input.length
      then input[(k + C - s.ring_write) % C]?
      else s.ring[k]? := by
  rw [sndbuf_store_ring, if_neg (by omega)]
  by_cases h2 : input.length < C - s.ring_write
  · -- no-wrap branch: `len < C - ring_write`
    rw [if_pos h2, List.take_of_length_le (le_refl _), copyAt_getElem?, hr]
    by_cases hwk : s.ring_write ≤ k
    · have hj : (k + C - s.ring_write) % C = k - s.ring_write := by
        have he : k + C - s.ring_write = (k - s.ring_write) + C := by omega
        rw [he, Nat.add_mod_right, Nat.mod_eq_of_lt (by omega)]
      rw [hj]
      by_cases hkl : k - s.ring_write < input.length
      · rw [if_pos ⟨hwk, by omega, hk⟩, if_pos hkl]
      · rw [if_neg (show ¬(s.ring_write ≤ k ∧ k < s.ring_write + input.length ∧ k < C) by
            omega),
          if_neg hkl]
    · have hj : (k + C - s.ring_write) % C = k + C - s.ring_write :=
        Nat.mod_eq_of_lt (by omega)
      rw [hj,
        if_neg (show ¬(s.ring_write ≤ k ∧ k < s.ring_write + input.length ∧ k < C) by omega),
        if_neg (by omega)]
  · rw [if_neg h2]
    by_cases h3 : C - s.ring_write = input.length
    · -- exact-fill branch: `C - ring_write = len`
      rw [if_pos h3]
      have ht : input.take (C - s.ring_write) = input := List.take_of_length_le (by omega)
      rw [ht, copyAt_getElem?, hr]
      by_cases hwk : s.ring_write ≤ k
      · have hj : (k + C - s.ring_write) % C = k - s.ring_write := by
          have he : k + C - s.ring_write = (k - s.ring_write) + C := by omega
          rw [he, Nat.add_mod_right, Nat.mod_eq_of_lt (by omega)]
        rw [hj, if_pos ⟨hwk, by omega, hk⟩, if_pos (by omega)]
      · have hj : (k + C - s.ring_write) % C = k + C - s.ring_write :=
          Nat.mod_eq_of_lt (by omega)
        rw [hj,
          if_neg (show ¬(s.ring_write ≤ k ∧ k < s.ring_write + input.length ∧ k < C) by omega),
          if_neg (by omega)]
    · -- wrap branch: `C - ring_write < len`
      rw [if_neg h3, copyAt_getElem?]
      have hlt : (input.take (C - s.ring_write)).length = C - s.ring_write := by
        simp [List.length_take]
        omega
      have hli : (copyAt s.ring 0 ((input.drop (C - s.ring_write)).take
          (input.length - (C - s.ring_write)))).length = C := by
        rw [copyAt_length, hr]
      rw [hlt, hli]
      by_cases hwk : s.ring_write ≤ k
      · have hj : (k + C - s.ring_write) % C = k - s.ring_write := by
          have he : k + C - s.ring_write = (k - s.ring_write) + C := by omega
          rw [he, Nat.add_mod_right, Nat.mod_eq_of_lt (by omega)]
        rw [hj, if_pos ⟨hwk, by omega, hk⟩, if_pos (by omega),
          List.getElem?_take_of_lt (by omega)]
      · rw [if_neg (show ¬(s.ring_write ≤ k ∧ k < s.ring_write + (C - s.ring_write) ∧ k < C) by
            omega),
          copyAt_getElem?, hr]
        have hls : ((input.drop (C - s.ring_write)).take
            (input.length - (C - s.ring_write))).length =
            input.length - (C - s.ring_write) := by
          simp [List.length_take, List.length_drop]
        rw [hls]
        have hj : (k + C - s.ring_write) % C = k + C - s.ring_write :=
          Nat.mod_eq_of_lt (by omega)
        rw [hj]
        by_cases hkl : k < input.length - (C - s.ring_write)
        · rw [if_pos ⟨by omega, by omega, by omega⟩, if_pos (by omega),
            List.getElem?_take_of_lt (by omega), List.getElem?_drop]
          have he : k + C - s.ring_write = C - s.ring_write + (k - 0) := by omega
          rw [he]
        · rw [if_neg (by omega), if_neg (by omega)]

/-! ### The drain side: `getNextFragment` linearises the ring -/

/-- when the destination window fits, `copyAt` splices `src` into the list. -/
theorem copyAt_eq_append (src l : List Int) (dst : Nat)
    (h : dst + src.length ≤ l.length) :
    copyAt l dst src = l.take dst ++ src ++ l.drop (dst + src.length) := by
  apply List.ext_getElem?
  intro k
  rw [copyAt_getElem?]
  have hts : (l.take dst ++ src).length = dst + src.length := by
    simp [List.length_take]
    omega
  by_cases h1 : dst ≤ k ∧ k < dst + src.length ∧ k < l.length
  · rw [if_pos h1, List.getElem?_append_left (by rw [hts]; omega),
      List.getElem?_append_right (by simp [List.length_take]; omega)]
    congr 1
    simp [List.length_take]
    omega
  · rw [if_neg h1]
    by_cases hk1 : k < dst
    · rw [List.getElem?_append_left (by rw [hts]; omega),
        List.getElem?_append_left (by simp [List.length_take]; omega),
        List.getElem?_take_of_lt hk1]
    · have hk2 : dst + src.length ≤ k := by omega
      rw [List.getElem?_append_right (by rw [hts]; omega), List.getElem?_drop]
      congr 1
      omega

/-- the linearised ring has length `C`. -/
theorem drainData_length (C : Nat) (s : SndBuf)
    (hr : s.ring.length = C) (hw : s.ring_write ≤ C) :
    (drainData s).length = C := by
  simp [drainData, hr]
  omega

/-- element `i` of the linearised ring is ring slot `(ring_write + i) % C`. -/
theorem drainData_getElem? (C : Nat) (s : SndBuf)
    (hr : s.ring.length = C) (hw : s.ring_write < C) (i : Nat) (hi : i < C) :
    (drainData s)[i]? = s.ring[(s.ring_write + i) % C]? := by
  simp only [drainData]
  by_cases h : i < C - s.ring_write
  · rw [List.getElem?_append_left (by rw [List.length_drop, hr]; omega),
      List.getElem?_drop, Nat.mod_eq_of_lt (by omega)]
  · rw [List.getElem?_append_right (by rw [List.length_drop, hr]; omega),
      List.length_drop, hr, List.getElem?_take_of_lt (by omega),
      Nat.mod_eq_sub_mod (by omega), Nat.mod_eq_of_lt (by omega)]
    congr 1
    omega

/-- the two `memcpy`s of `getNextFragment` produce exactly the linearised
ring, overwriting the whole `data` buffer. -/
theorem getNextFragment_eq (C : Nat) (s : SndBuf) (data : List Int)
    (hsig : s.signalled = true) (hr : s.ring.length = C) (hw : s.ring_write < C)
    (hd : data.length = C) :
    getNextFragment C s data =
      some (drainData s,
        { ring := s.ring, ring_write := s.ring_write, ring_has := 0, signalled := false },
        s.ring_has) := by
  simp only [getNextFragment, hsig, if_true]
  have hA : (s.ring.drop s.ring_write).take (C - s.ring_write) = s.ring.drop s.ring_write :=
    List.take_of_length_le (by rw [List.length_drop, hr])
  have h1 : copyAt data 0 ((s.ring.drop s.ring_write).take (C - s.ring_write)) =
      s.ring.drop s.ring_write ++ data.drop (C - s.ring_write) := by
    rw [hA, copyAt_eq_append _ _ _ (by rw [List.length_drop, hr, hd]; omega)]
    simp [List.length_drop, hr]
  by_cases hwpos : 0 < s.ring_write
  · rw [if_pos hwpos, h1,
      copyAt_eq_append _ _ _ (by
        simp [List.length_drop, List.length_take, hr, hd]
        omega)]
    have ht : (s.ring.drop s.ring_write ++ data.drop (C - s.ring_write)).take
        (C - s.ring_write) = s.ring.drop s.ring_write :=
      List.take_left' (by rw [List.length_drop, hr])
    have hdr : (s.ring.drop s.ring_write ++ data.drop (C - s.ring_write)).drop
        (C - s.ring_write + (s.ring.take s.ring_write).length) = [] := by
      apply List.drop_eq_nil_of_le
      simp [List.length_drop, List.length_take, hr, hd]
      omega
    rw [ht, hdr, List.append_nil]
    rfl
  · rw [if_neg hwpos, h1]
    have hw0 : s.ring_write = 0 := by omega
    rw [hw0]
    simp only [Nat.sub_zero, List.drop_zero, List.take_zero, List.append_nil]
    rw [List.drop_eq_nil_of_le (by rw [hd]), List.append_nil]
    simp [drainData, hw0]

/-! ### The stream view: a store keeps exactly the last `C` samples -/

/-- one store turns the linearised ring `L` into the last `C` samples of
`L ++ input` — in both the normal and the overrun branch. -/
theorem drainData_store (C : Nat) (s : SndBuf) (input : List Int)
    (hC : 0 < C) (hr : s.ring.length = C) (hw : s.ring_write < C) :
    drainData (sndbuf_store C s input).1 = lastN C (drainData s ++ input) := by
  have hL : (drainData s).length = C := drainData_length C s hr (le_of_lt hw)
  have hlastlen : (drainData s ++ input).length - C = input.length := by
    rw [List.length_append, hL]
    omega
  by_cases hov : C ≤ input.length
  · -- overrun branch
    have hsrc : (input.drop (input.length - C)).take C = input.drop (input.length - C) :=
      List.take_of_length_le (by rw [List.length_drop]; omega)
    have hlen2 : (input.drop (input.length - C)).length = C := by
      rw [List.length_drop]
      omega
    have hring : (sndbuf_store C s input).1.ring = input.drop (input.length - C) := by
      rw [sndbuf_store_ring, if_pos hov, hsrc,
        copyAt_eq_append (input.drop (input.length - C)) s.ring 0
          (by rw [List.length_drop, hr]; omega)]
      rw [List.take_zero, List.nil_append, Nat.zero_add, hlen2,
        List.drop_eq_nil_of_le (le_of_eq hr), List.append_nil]
    have hfin : drainData (sndbuf_store C s input).1 = (sndbuf_store C s input).1.ring := by
      rw [drainData, sndbuf_store_ring_write_overrun C s input hov]
      simp
    have h2 : lastN C (drainData s ++ input) = input.drop (input.length - C) := by
      rw [lastN, hlastlen, List.drop_append_eq_append_drop,
        List.drop_eq_nil_of_le (by rw [hL]; omega), hL, List.nil_append]
    rw [hfin, hring, h2]
  · -- normal branch
    have hlen : input.length < C := by omega
    have hr' : (sndbuf_store C s input).1.ring.length = C := by
      rw [sndbuf_store_ring_length, hr]
    have hw' : (sndbuf_store C s input).1.ring_write < C :=
      sndbuf_store_ring_write_lt C s input hC hw
    apply List.ext_getElem?
    intro i
    by_cases hi : i < C
    · rw [drainData_getElem? C _ hr' hw' i hi, sndbuf_store_ring_write C s input hw hlen,
        sndbuf_store_ring_getElem? C s input hr hw hlen _ (Nat.mod_lt _ hC)]
      have hk : ((s.ring_write + input.length) % C + i) % C =
          (s.ring_write + (input.length + i)) % C := by
        rw [Nat.mod_add_mod, Nat.add_assoc]
      have hj : (((s.ring_write + input.length) % C + i) % C + C - s.ring_write) % C =
          (input.length + i) % C := by
        rw [hk, mod_shift C s.ring_write (input.length + i) hw]
      rw [hj, hk]
      simp only [lastN, hlastlen]
      rw [List.getElem?_drop]
      by_cases hcase : i < C - input.length
      · have hm : (input.length + i) % C = input.length + i :=
          Nat.mod_eq_of_lt (by omega)
        rw [hm, if_neg (by omega),
          List.getElem?_append_left (show input.length + i < (drainData s).length by omega),
          drainData_getElem? C s hr hw _ (by omega)]
      · have hm : (input.length + i) % C = input.length + i - C := by
          rw [Nat.mod_eq_sub_mod (by omega), Nat.mod_eq_of_lt (by omega)]
        rw [hm, if_pos (by omega),
          List.getElem?_append_right (show (drainData s).length ≤ input.length + i by omega),
          hL]
    · rw [List.getElem?_eq_none (by rw [drainData_length C _ hr' (le_of_lt hw')]; omega),
        List.getElem?_eq_none (by simp [lastN, hlastlen]; omega)]

/-- taking the last `C` twice collapses: `lastN C (lastN C l ++ m) =
lastN C (l ++ m)` when `l` is long enough. -/
theorem lastN_append_lastN (C : Nat) (l m : List Int) (hl : C ≤ l.length) :
    lastN C (lastN C l ++ m) = lastN C (l ++ m) := by
  simp only [lastN]
  have h1 : (l.drop (l.length - C)).length = C := by
    rw [List.length_drop]
    omega
  rw [List.length_append, h1, List.length_append]
  have e1 : C + m.length - C = m.length := by omega
  rw [e1, List.drop_append_eq_append_drop, List.drop_append_eq_append_drop,
    List.drop_drop, h1]
  have e2 : l.length - C + m.length = l.length + m.length - C := by omega
  have e3 : m.length - C = l.length + m.length - C - l.length := by omega
  rw [e2, e3]

/-- ring length is preserved by any sequence of stores. -/
theorem storeAll_ring_length (C : Nat) (batches : List (List Int)) :
    ∀ s : SndBuf, (storeAll C s batches).ring.length = s.ring.length := by
  induction batches with
  | nil => intro s; rfl
  | cons b bs ih =>
    intro s
    show (storeAll C (sndbuf_store C s b).1 bs).ring.length = _
    rw [ih, sndbuf_store_ring_length]

/-- the write cursor stays in range through any sequence of stores. -/
theorem storeAll_ring_write_lt (C : Nat) (batches : List (List Int)) (hC : 0 < C) :
    ∀ s : SndBuf, s.ring_write < C → (storeAll C s batches).ring_write < C := by
  induction batches with
  | nil => intro s hw; exact hw
  | cons b bs ih =>
    intro s hw
    exact ih _ (sndbuf_store_ring_write_lt C s b hC hw)

/-- the fundamental stream property: after any sequence of stores the
linearised ring is the last `C` samples of the previous linearised ring
followed by all batches in call order. -/
theorem drainData_storeAll (C : Nat) (batches : List (List Int)) :
    ∀ s : SndBuf, 0 < C → s.ring.length = C → s.ring_write < C →
    drainData (storeAll C s batches) = lastN C (drainData s ++ batches.flatten) := by
  induction batches with
  | nil =>
    intro s hC hr hw
    simp only [storeAll, List.foldl_nil, List.flatten_nil, List.append_nil, lastN]
    rw [drainData_length C s hr (le_of_lt hw), Nat.sub_self, List.drop_zero]
  | cons b bs ih =>
    intro s hC hr hw
    show drainData (storeAll C (sndbuf_store C s b).1 bs) = _
    rw [ih _ hC (by rw [sndbuf_store_ring_length, hr])
        (sndbuf_store_ring_write_lt C s b hC hw),
      drainData_store C s b hC hr hw,
      lastN_append_lastN C _ _ (by
        rw [List.length_append, drainData_length C s hr (le_of_lt hw)]
        omega),
      List.flatten_cons, List.append_assoc]

/-! ### Counter accumulation, signalling and blocking -/

/-- `ring_has` accumulates the batch lengths modulo `2^32`. -/
theorem storeAll_ring_has (C : Nat) (batches : List (List Int)) :
    ∀ s : SndBuf, s.ring_has < UINT_MOD →
    (storeAll C s batches).ring_has =
      (s.ring_has + (batches.map List.length).sum) % UINT_MOD := by
  induction batches with
  | nil =>
    intro s hs
    simp only [storeAll, List.foldl_nil, List.map_nil, List.sum_nil, Nat.add_zero]
    exact (Nat.mod_eq_of_lt hs).symm
  | cons b bs ih =>
    intro s hs
    show (storeAll C (sndbuf_store C s b).1 bs).ring_has = _
    rw [ih _ (by rw [sndbuf_store_ring_has]; exact Nat.mod_lt _ (by norm_num [UINT_MOD])),
      sndbuf_store_ring_has, Nat.mod_add_mod, List.map_cons, List.sum_cons, Nat.add_assoc]

/-- once signalled, further stores keep the flag set. -/
theorem storeAll_signalled (C : Nat) (batches : List (List Int)) :
    ∀ s : SndBuf, s.signalled = true → (storeAll C s batches).signalled = true := by
  induction batches with
  | nil => intro s hs; exact hs
  | cons b bs ih =>
    intro s hs
    exact ih _ (by rw [sndbuf_store_signalled, hs, Bool.true_or])

/-- relate the wake-counting fold to `storeAll` and `storeRun`. -/
theorem storeRun_shift (C : Nat) (batches : List (List Int)) :
    ∀ (s : SndBuf) (n : Nat),
    batches.foldl
      (fun p b =>
        ((sndbuf_store C p.1 b).1, p.2 + (if (sndbuf_store C p.1 b).2 then 1 else 0)))
      (s, n) = (storeAll C s batches, n + (storeRun C s batches).2) := by
  induction batches with
  | nil => intro s n; simp [storeAll, storeRun]
  | cons b bs ih =>
    intro s n
    have hrun : (storeRun C s (b :: bs)).2 =
        (if (sndbuf_store C s b).2 then 1 else 0) +
          (storeRun C (sndbuf_store C s b).1 bs).2 := by
      show (bs.foldl _ ((sndbuf_store C s b).1,
        0 + (if (sndbuf_store C s b).2 then 1 else 0))).2 = _
      rw [ih]
      simp
    show bs.foldl _ ((sndbuf_store C s b).1,
      n + (if (sndbuf_store C s b).2 then 1 else 0)) = _
    rw [ih, hrun, Prod.mk.injEq]
    exact ⟨rfl, Nat.add_assoc _ _ _⟩

/-- while the flag is already set, no store in a run signals again. -/
theorem storeRun_no_wake (C : Nat) (batches : List (List Int)) :
    ∀ s : SndBuf, s.signalled = true → (storeRun C s batches).2 = 0 := by
  induction batches with
  | nil => intro s hs; rfl
  | cons b bs ih =>
    intro s hs
    show (bs.foldl _ ((sndbuf_store C s b).1, 0 + (if (sndbuf_store C s b).2 then 1 else 0))).2 = 0
    rw [storeRun_shift]
    have hwk : (sndbuf_store C s b).2 = false := by
      rw [sndbuf_store_wake, hs]
      simp
    rw [hwk,
      ih _ (by rw [sndbuf_store_signalled, hs, Bool.true_or])]
    simp

/-- a blocked consumer: `getNextFragment` does not return while the flag is
unset. -/
theorem getNextFragment_none (C : Nat) (s : SndBuf) (data : List Int)
    (hs : s.signalled = false) : getNextFragment C s data = none := by
  simp [getNextFragment, hs]

/-- whenever `getNextFragment` returns, the flag was set; the new state keeps
the ring and cursor, clears the flag and the counter; the count returned is
the old counter. -/
theorem getNextFragment_some (C : Nat) (s : SndBuf) (data frag : List Int)
    (s' : SndBuf) (cnt : Nat)
    (h : getNextFragment C s data = some (frag, s', cnt)) :
    s.signalled = true ∧
    s' = { ring := s.ring, ring_write := s.ring_write, ring_has := 0, signalled := false } ∧
    cnt = s.ring_has := by
  by_cases hs : s.signalled
  · simp only [getNextFragment, hs, if_true, Option.some.injEq, Prod.mk.injEq] at h
    exact ⟨hs, h.2.1.symm, h.2.2.symm⟩
  · simp [getNextFragment, hs] at h

/-! ### The checked operations never hit an out-of-range access -/

/-- `copyAtChecked` succeeds (and agrees with `copyAt`) when the window fits. -/
theorem copyAtChecked_eq (src : List Int) : ∀ (l : List Int) (dst : Nat),
    dst + src.length ≤ l.length →
    copyAtChecked l dst src = some (copyAt l dst src) := by
  induction src with
  | nil => intro l dst h; rfl
  | cons x xs ih =>
    intro l dst h
    simp only [copyAtChecked, copyAt, List.length_cons] at h ⊢
    rw [if_pos (by omega)]
    exact ih _ _ (by simp; omega)

/-- `readSlice` succeeds when the range is inside the list. -/
theorem readSlice_eq (l : List Int) (off cnt : Nat) (h : off + cnt ≤ l.length) :
    readSlice l off cnt = some ((l.drop off).take cnt) := by
  simp [readSlice, h]

/-- under the state invariant, every access of `sndbuf_store` is in bounds:
the checked version succeeds and agrees with the unchecked one. -/
theorem sndbuf_storeChecked_eq (C : Nat) (s : SndBuf) (input : List Int)
    (hr : s.ring.length = C) (hw : s.ring_write < C) :
    sndbuf_storeChecked C s input = some (sndbuf_store C s input) := by
  simp only [sndbuf_storeChecked, sndbuf_store]
  split_ifs with h1 h2 h3
  · have e1 := readSlice_eq input (input.length - C) C (by omega)
    have e2 := copyAtChecked_eq ((input.drop (input.length - C)).take C) s.ring 0 (by
      rw [List.length_take, List.length_drop, hr]
      omega)
    simp [e1, e2]
  · have e1 := readSlice_eq input 0 input.length (by omega)
    have e2 := copyAtChecked_eq input s.ring s.ring_write (by
      rw [hr]
      omega)
    simp [e1, e2]
  · have e1 := readSlice_eq input 0 (C - s.ring_write) (by omega)
    have e2 := copyAtChecked_eq (input.take (C - s.ring_write)) s.ring
      s.ring_write (by
        rw [List.length_take, hr]
        omega)
    simp [e1, e2]
  · have e1 := readSlice_eq input (C - s.ring_write)
      (input.length - (C - s.ring_write)) (by omega)
    have e2 := copyAtChecked_eq
      ((input.drop (C - s.ring_write)).take (input.length - (C - s.ring_write)))
      s.ring 0 (by
        rw [List.length_take, List.length_drop, hr]
        omega)
    have e3 := readSlice_eq input 0 (C - s.ring_write) (by omega)
    have e4 := copyAtChecked_eq (input.take (C - s.ring_write))
      (copyAt s.ring 0
        ((input.drop (C - s.ring_write)).take (input.length - (C - s.ring_write))))
      s.ring_write (by
        rw [List.length_take, copyAt_length, hr]
        omega)
    simp [e1, e2, e3, e4]

/-- under the state invariant, every access of `getNextFragment` is in
bounds: the checked version agrees with the unchecked one. -/
theorem getNextFragmentChecked_eq (C : Nat) (s : SndBuf) (data : List Int)
    (hr : s.ring.length = C) (hw : s.ring_write < C) (hd : data.length = C) :
    getNextFragmentChecked C s data = getNextFragment C s data := by
  by_cases hs : s.signalled
  · simp only [getNextFragmentChecked, getNextFragment, hs, if_true]
    have e1 := readSlice_eq s.ring s.ring_write (C - s.ring_write) (by rw [hr]; omega)
    have e2 := copyAtChecked_eq ((s.ring.drop s.ring_write).take (C - s.ring_write))
      data 0 (by
        rw [List.length_take, List.length_drop, hr, hd]
        omega)
    have e3 := readSlice_eq s.ring 0 s.ring_write (by rw [hr]; omega)
    have e4 := copyAtChecked_eq (s.ring.take s.ring_write)
      (copyAt data 0 ((s.ring.drop s.ring_write).take (C - s.ring_write)))
      (C - s.ring_write) (by
        rw [List.length_take, copyAt_length, hd, hr]
        omega)
    by_cases hwpos : 0 < s.ring_write
    · simp [hwpos, e1, e2, e3, e4]
    · simp [hwpos, e1, e2]
  · simp [getNextFragmentChecked, getNextFragment, hs]

/-! ### The reachable-state invariant -/

/-- in every reachable state, an unset flag means the pending count is still
below the threshold. -/
theorem reachable_not_signalled (C : Nat) (hC : 0 < MIN_NEW_SAMPLES C) :
    ∀ s : SndBuf, Reachable C s →
    s.signalled = false → s.ring_has < MIN_NEW_SAMPLES C := by
  intro s h
  induction h with
  | init => intro _; simpa [sndbuf_init] using hC
  | store s input hR ih =>
    intro hsf
    rw [sndbuf_store_signalled, Bool.or_eq_false_iff] at hsf
    have h2 : ¬ MIN_NEW_SAMPLES C ≤ (s.ring_has + input.length) % UINT_MOD := by
      simpa using hsf.2
    rw [sndbuf_store_ring_has]
    omega
  | drain s data frag s' cnt hR hfrag ih =>
    intro _
    obtain ⟨-, hs', -⟩ := getNextFragment_some C s data frag s' cnt hfrag
    rw [hs']
    exact hC

/-- in the overrun branch the whole ring becomes the last `C` input samples. -/
theorem sndbuf_store_ring_overrun (C : Nat) (s : SndBuf) (input : List Int)
    (hr : s.ring.length = C) (hov : C ≤ input.length) :
    (sndbuf_store C s input).1.ring = input.drop (input.length - C) := by
  have hsrc : (input.drop (input.length - C)).take C = input.drop (input.length - C) :=
    List.take_of_length_le (by rw [List.length_drop]; omega)
  have hlen2 : (input.drop (input.length - C)).length = C := by
    rw [List.length_drop]
    omega
  rw [sndbuf_store_ring, if_pos hov, hsrc,
    copyAt_eq_append (input.drop (input.length - C)) s.ring 0
      (by rw [List.length_drop, hr]; omega)]
  rw [List.take_zero, List.nil_append, Nat.zero_add, hlen2,
    List.drop_eq_nil_of_le (le_of_eq hr), List.append_nil]

/-- unfolding one step of the wake-counting run. -/
theorem storeRun_cons (C : Nat) (s : SndBuf) (b : List Int) (rest : List (List Int)) :
    (storeRun C s (b :: rest)).2 =
      (if (sndbuf_store C s b).2 then 1 else 0) +
        (storeRun C (sndbuf_store C s b).1 rest).2 := by
  show (rest.foldl _ ((sndbuf_store C s b).1,
    0 + (if (sndbuf_store C s b).2 then 1 else 0))).2 = _
  rw [storeRun_shift]
  simp

/-! ### The claims -/

/-- C1: for a batch with `len ≥ C`, one `sndbuf_store` call overwrites the
whole ring with the last `C` input samples (`ring[i] = input[len - C + i]`),
drops the older `len - C` samples, resets the write cursor to 0, and an
immediate drain returns exactly those last `C` samples oldest-first (with
count `ring_has + len`, assuming the unsigned counter does not wrap in this
call). -/
theorem soundbuf_c1 (C : Nat) (s : SndBuf) (input data : List Int)
    (hC : 0 < C) (hr : s.ring.length = C) (_hw : s.ring_write < C)
    (hlen : C ≤ input.length) (hd : data.length = C)
    (hno : s.ring_has + input.length < UINT_MOD) :
    (∀ i, i < C → (sndbuf_store C s input).1.ring[i]? = input[input.length - C + i]?)
    ∧ (sndbuf_store C s input).1.ring_write = 0
    ∧ getNextFragment C (sndbuf_store C s input).1 data =
        some (input.drop (input.length - C),
          { ring := input.drop (input.length - C), ring_write := 0, ring_has := 0,
            signalled := false },
          s.ring_has + input.length) := by
  have hring := sndbuf_store_ring_overrun C s input hr hlen
  have hw0 := sndbuf_store_ring_write_overrun C s input hlen
  have hhas : (sndbuf_store C s input).1.ring_has = s.ring_has + input.length := by
    rw [sndbuf_store_ring_has, Nat.mod_eq_of_lt hno]
  have hsig : (sndbuf_store C s input).1.signalled = true := by
    rw [sndbuf_store_signalled, Nat.mod_eq_of_lt hno]
    have : MIN_NEW_SAMPLES C ≤ s.ring_has + input.length := by
      have := Nat.div_le_self C 2
      simp only [MIN_NEW_SAMPLES]
      omega
    simp [this]
  have hr' : (sndbuf_store C s input).1.ring.length = C := by
    rw [hring, List.length_drop]
    omega
  refine ⟨?_, hw0, ?_⟩
  · intro i hi
    rw [hring, List.getElem?_drop]
  · rw [getNextFragment_eq C _ data hsig hr' (by rw [hw0]; exact hC) hd, hhas]
    have hdr : drainData (sndbuf_store C s input).1 = input.drop (input.length - C) := by
      rw [drainData, hw0, hring]
      simp
    rw [hdr, hw0, hring]

/-- C1 witness: `C = 4`, fresh channel, batch `[1,2,3,4,5,6]` of length 6. -/
theorem soundbuf_c1_witness :
    (0 < 4 ∧ (sndbuf_init 4).ring.length = 4 ∧ (sndbuf_init 4).ring_write < 4 ∧
      4 ≤ ([1, 2, 3, 4, 5, 6] : List Int).length ∧
      ([0, 0, 0, 0] : List Int).length = 4 ∧
      (sndbuf_init 4).ring_has + ([1, 2, 3, 4, 5, 6] : List Int).length < UINT_MOD)
    ∧ ((∀ i, i < 4 →
          (sndbuf_store 4 (sndbuf_init 4) [1, 2, 3, 4, 5, 6]).1.ring[i]? =
            ([1, 2, 3, 4, 5, 6] : List Int)[([1, 2, 3, 4, 5, 6] : List Int).length - 4 + i]?)
        ∧ (sndbuf_store 4 (sndbuf_init 4) [1, 2, 3, 4, 5, 6]).1.ring_write = 0
        ∧ getNextFragment 4 (sndbuf_store 4 (sndbuf_init 4) [1, 2, 3, 4, 5, 6]).1 [0, 0, 0, 0] =
            some (([1, 2, 3, 4, 5, 6] : List Int).drop (([1, 2, 3, 4, 5, 6] : List Int).length - 4),
              { ring := ([1, 2, 3, 4, 5, 6] : List Int).drop
                  (([1, 2, 3, 4, 5, 6] : List Int).length - 4),
                ring_write := 0, ring_has := 0, signalled := false },
              (sndbuf_init 4).ring_has + ([1, 2, 3, 4, 5, 6] : List Int).length)) :=
  ⟨⟨by decide, by decide, by decide, by decide, by decide, by decide⟩,
    soundbuf_c1 4 (sndbuf_init 4) [1, 2, 3, 4, 5, 6] [0, 0, 0, 0]
      (by decide) (by decide) (by decide) (by decide) (by decide) (by decide)⟩

/-- C2: for a batch with `len < C` and cursor `w`, `sndbuf_store` writes
`input[j]` to slot `(w + j) % C`, leaves every other slot unchanged, and
sets the cursor to `(w + len) % C` — 0 on an exact fill, the tail length
`len - (C - w)` on a wrap. -/
theorem soundbuf_c2 (C : Nat) (s : SndBuf) (input : List Int)
    (hr : s.ring.length = C) (hw : s.ring_write < C) (hlen : input.length < C) :
    (∀ j, j < input.length →
      (sndbuf_store C s input).1.ring[(s.ring_write + j) % C]? = input[j]?)
    ∧ (∀ k, k < C → (∀ j, j < input.length → k ≠ (s.ring_write + j) % C) →
        (sndbuf_store C s input).1.ring[k]? = s.ring[k]?)
    ∧ (sndbuf_store C s input).1.ring_write = (s.ring_write + input.length) % C
    ∧ (s.ring_write + input.length = C → (sndbuf_store C s input).1.ring_write = 0)
    ∧ (C < s.ring_write + input.length →
        (sndbuf_store C s input).1.ring_write = input.length - (C - s.ring_write)) := by
  have hC : 0 < C := by omega
  refine ⟨?_, ?_, sndbuf_store_ring_write C s input hw hlen, ?_, ?_⟩
  · intro j hj
    rw [sndbuf_store_ring_getElem? C s input hr hw hlen _ (Nat.mod_lt _ hC),
      mod_shift C s.ring_write j hw, Nat.mod_eq_of_lt (by omega),
      if_pos hj]
  · intro k hk hmiss
    rw [sndbuf_store_ring_getElem? C s input hr hw hlen k hk]
    have hge : ¬ (k + C - s.ring_write) % C < input.length := by
      intro hlt
      apply hmiss ((k + C - s.ring_write) % C) hlt
      rw [Nat.add_mod_mod]
      have he : s.ring_write + (k + C - s.ring_write) = k + C := by omega
      rw [he, Nat.add_mod_right, Nat.mod_eq_of_lt hk]
    rw [if_neg hge]
  · intro hfill
    rw [sndbuf_store_ring_write C s input hw hlen, hfill, Nat.mod_self]
  · intro hcross
    rw [sndbuf_store_ring_write C s input hw hlen,
      Nat.mod_eq_sub_mod (by omega), Nat.mod_eq_of_lt (by omega)]
    omega

/-- C2 witness: `C = 4`, cursor at 3, batch `[9, 8]` wraps around the end. -/
theorem soundbuf_c2_witness :
    ((⟨[0, 0, 0, 0], 3, 0, false⟩ : SndBuf).ring.length = 4 ∧
      (⟨[0, 0, 0, 0], 3, 0, false⟩ : SndBuf).ring_write < 4 ∧
      ([9, 8] : List Int).length < 4)
    ∧ ((∀ j, j < ([9, 8] : List Int).length →
          (sndbuf_store 4 ⟨[0, 0, 0, 0], 3, 0, false⟩ [9, 8]).1.ring[(3 + j) % 4]? =
            ([9, 8] : List Int)[j]?)
        ∧ (∀ k, k < 4 → (∀ j, j < ([9, 8] : List Int).length → k ≠ (3 + j) % 4) →
            (sndbuf_store 4 ⟨[0, 0, 0, 0], 3, 0, false⟩ [9, 8]).1.ring[k]? =
              (⟨[0, 0, 0, 0], 3, 0, false⟩ : SndBuf).ring[k]?)
        ∧ (sndbuf_store 4 ⟨[0, 0, 0, 0], 3, 0, false⟩ [9, 8]).1.ring_write =
            (3 + ([9, 8] : List Int).length) % 4
        ∧ (3 + ([9, 8] : List Int).length = 4 →
            (sndbuf_store 4 ⟨[0, 0, 0, 0], 3, 0, false⟩ [9, 8]).1.ring_write = 0)
        ∧ (4 < 3 + ([9, 8] : List Int).length →
            (sndbuf_store 4 ⟨[0, 0, 0, 0], 3, 0, false⟩ [9, 8]).1.ring_write =
              ([9, 8] : List Int).length - (4 - 3))) :=
  ⟨⟨by decide, by decide, by decide⟩,
    soundbuf_c2 4 ⟨[0, 0, 0, 0], 3, 0, false⟩ [9, 8] (by decide) (by decide) (by decide)⟩

/-- C3: a successful `getNextFragment` returns the flat sequence
`ring[w..C) ++ ring[0..w)` of length exactly `C`, i.e. slot `(w + i) % C`
at position `i` — the ring linearised oldest-to-newest. -/
theorem soundbuf_c3 (C : Nat) (s : SndBuf) (data frag : List Int) (s' : SndBuf) (cnt : Nat)
    (hr : s.ring.length = C) (hw : s.ring_write < C) (hd : data.length = C)
    (h : getNextFragment C s data = some (frag, s', cnt)) :
    frag = s.ring.drop s.ring_write ++ s.ring.take s.ring_write
    ∧ frag.length = C
    ∧ ∀ i, i < C → frag[i]? = s.ring[(s.ring_write + i) % C]? := by
  obtain ⟨hsig, -, -⟩ := getNextFragment_some C s data frag s' cnt h
  rw [getNextFragment_eq C s data hsig hr hw hd, Option.some.injEq, Prod.mk.injEq] at h
  have hfrag : frag = drainData s := h.1.symm
  refine ⟨hfrag, ?_, ?_⟩
  · rw [hfrag, drainData_length C s hr (le_of_lt hw)]
  · intro i hi
    rw [hfrag, drainData_getElem? C s hr hw i hi]

/-- C3 witness: `C = 4`, a signalled state with cursor 1. -/
theorem soundbuf_c3_witness :
    ((⟨[10, 20, 30, 40], 1, 5, true⟩ : SndBuf).ring.length = 4 ∧
      (⟨[10, 20, 30, 40], 1, 5, true⟩ : SndBuf).ring_write < 4 ∧
      ([0, 0, 0, 0] : List Int).length = 4 ∧
      getNextFragment 4 ⟨[10, 20, 30, 40], 1, 5, true⟩ [0, 0, 0, 0] =
        some ([20, 30, 40, 10], ⟨[10, 20, 30, 40], 1, 0, false⟩, 5))
    ∧ (([20, 30, 40, 10] : List Int) =
          ([10, 20, 30, 40] : List Int).drop 1 ++ ([10, 20, 30, 40] : List Int).take 1
        ∧ ([20, 30, 40, 10] : List Int).length = 4
        ∧ ∀ i, i < 4 → ([20, 30, 40, 10] : List Int)[i]? =
            ([10, 20, 30, 40] : List Int)[(1 + i) % 4]?) :=
  ⟨⟨by decide, by decide, by decide, by decide⟩,
    soundbuf_c3 4 ⟨[10, 20, 30, 40], 1, 5, true⟩ [0, 0, 0, 0] [20, 30, 40, 10]
      ⟨[10, 20, 30, 40], 1, 0, false⟩ 5 (by decide) (by decide) (by decide) (by decide)⟩

/-- C4: starting from a fresh channel, the fragment produced by a drain
after any sequence of stores is the last `C` samples of the stream
`C zeros ++ (all batches in call order)`; in particular when the total
stored is at most `C` the stored samples appear exactly once, in order,
preceded by zeros — and this covers any pair of consecutive stores whose
combined length crosses the end of the ring. -/
theorem soundbuf_c4 (C : Nat) (batches : List (List Int)) (data frag : List Int)
    (s' : SndBuf) (cnt : Nat) (hC : 0 < C) (hd : data.length = C)
    (h : getNextFragment C (storeAll C (sndbuf_init C) batches) data =
      some (frag, s', cnt)) :
    frag = lastN C (List.replicate C 0 ++ batches.flatten)
    ∧ (batches.flatten.length ≤ C →
        frag = List.replicate (C - batches.flatten.length) 0 ++ batches.flatten) := by
  have hr0 : (sndbuf_init C).ring.length = C := by simp [sndbuf_init]
  have hw0 : (sndbuf_init C).ring_write < C := hC
  have hrf : (storeAll C (sndbuf_init C) batches).ring.length = C := by
    rw [storeAll_ring_length, hr0]
  have hwf := storeAll_ring_write_lt C batches hC _ hw0
  obtain ⟨hsig, -, -⟩ := getNextFragment_some C _ data frag s' cnt h
  rw [getNextFragment_eq C _ data hsig hrf hwf hd, Option.some.injEq,
    Prod.mk.injEq] at h
  have hmain : frag = lastN C (List.replicate C 0 ++ batches.flatten) := by
    rw [← h.1, drainData_storeAll C batches _ hC hr0 hw0]
    congr 1
    simp [drainData, sndbuf_init]
  refine ⟨hmain, ?_⟩
  intro hle
  rw [hmain, lastN]
  have hlen : (List.replicate C 0 ++ batches.flatten).length =
      C + batches.flatten.length := by
    simp
  rw [hlen]
  have e1 : C + batches.flatten.length - C = batches.flatten.length := by omega
  rw [e1, List.drop_append_of_le_length (by simpa using hle), List.drop_replicate]

/-- C4 witness: `C = 4`, batches `[1,2,3]` then `[4,5]` (the second store
wraps around the end of the ring). -/
theorem soundbuf_c4_witness :
    (0 < 4 ∧ ([0, 0, 0, 0] : List Int).length = 4 ∧
      getNextFragment 4 (storeAll 4 (sndbuf_init 4) [[1, 2, 3], [4, 5]]) [0, 0, 0, 0] =
        some ([2, 3, 4, 5], ⟨[5, 2, 3, 4], 1, 0, false⟩, 5))
    ∧ (([2, 3, 4, 5] : List Int) =
          lastN 4 (List.replicate 4 0 ++ ([[1, 2, 3], [4, 5]] : List (List Int)).flatten)
        ∧ (([[1, 2, 3], [4, 5]] : List (List Int)).flatten.length ≤ 4 →
            ([2, 3, 4, 5] : List Int) =
              List.replicate (4 - ([[1, 2, 3], [4, 5]] : List (List Int)).flatten.length) 0 ++
                ([[1, 2, 3], [4, 5]] : List (List Int)).flatten)) :=
  ⟨⟨by decide, by decide, by decide⟩,
    soundbuf_c4 4 [[1, 2, 3], [4, 5]] [0, 0, 0, 0] [2, 3, 4, 5]
      ⟨[5, 2, 3, 4], 1, 0, false⟩ 5 (by decide) (by decide) (by decide)⟩

/-- C5: `sndbuf_store` signals exactly when the updated pending count is at
least the threshold and the flag is currently unset, setting the flag in the
same step; a run of stores that keeps the count at or above the threshold
with no drain in between produces exactly one wake; and `getNextFragment`
never returns while the flag is unset. -/
theorem soundbuf_c5 (C : Nat) (s : SndBuf) (input data b : List Int)
    (rest : List (List Int)) :
    ((sndbuf_store C s input).2 = true ↔
      (MIN_NEW_SAMPLES C ≤ (s.ring_has + input.length) % UINT_MOD ∧
        s.signalled = false))
    ∧ ((sndbuf_store C s input).2 = true → (sndbuf_store C s input).1.signalled = true)
    ∧ (s.signalled = false →
        MIN_NEW_SAMPLES C ≤ (s.ring_has + b.length) % UINT_MOD →
        (storeRun C s (b :: rest)).2 = 1)
    ∧ (s.signalled = false → getNextFragment C s data = none) := by
  refine ⟨?_, ?_, ?_, getNextFragment_none C s data⟩
  · rw [sndbuf_store_wake]
    cases s.signalled <;> simp
  · intro hwk
    rw [sndbuf_store_wake, Bool.and_eq_true, decide_eq_true_eq] at hwk
    rw [sndbuf_store_signalled]
    simp [hwk.1]
  · intro hsf hth
    have hwkb : (sndbuf_store C s b).2 = true := by
      rw [sndbuf_store_wake, hsf]
      simp [hth]
    have hsig : (sndbuf_store C s b).1.signalled = true := by
      rw [sndbuf_store_signalled, hsf]
      simp [hth]
    rw [storeRun_cons, hwkb, storeRun_no_wake C rest _ hsig]
    rfl

/-- C6: the count returned by a drain is the sum of the `len` arguments of
all stores since the previous drain, computed modulo `2^32`; and the count
can exceed `C` when the consumer falls behind (witnessed at `C = 2` with six
samples stored between drains). -/
theorem soundbuf_c6 (C : Nat) (s : SndBuf) (batches : List (List Int))
    (data frag : List Int) (s' : SndBuf) (cnt : Nat)
    (hs0 : s.ring_has = 0)
    (h : getNextFragment C (storeAll C s batches) data = some (frag, s', cnt)) :
    cnt = (batches.map List.length).sum % UINT_MOD
    ∧ (getNextFragment 2 (storeAll 2 (sndbuf_init 2) [[1, 2, 3], [4, 5, 6]]) [0, 0] =
        some ([5, 6], ⟨[5, 6], 0, 0, false⟩, 6) ∧ 2 < 6) := by
  obtain ⟨-, -, hcnt⟩ := getNextFragment_some C _ data frag s' cnt h
  refine ⟨?_, by decide, by decide⟩
  rw [hcnt, storeAll_ring_has C batches s (by rw [hs0]; norm_num [UINT_MOD]), hs0,
    Nat.zero_add]

/-- C6 witness: `C = 4`, one batch of three samples since construction. -/
theorem soundbuf_c6_witness :
    ((sndbuf_init 4).ring_has = 0 ∧
      getNextFragment 4 (storeAll 4 (sndbuf_init 4) [[1, 2, 3]]) [0, 0, 0, 0] =
        some ([0, 1, 2, 3], ⟨[1, 2, 3, 0], 3, 0, false⟩, 3))
    ∧ ((3 : Nat) = (([[1, 2, 3]] : List (List Int)).map List.length).sum % UINT_MOD
        ∧ (getNextFragment 2 (storeAll 2 (sndbuf_init 2) [[1, 2, 3], [4, 5, 6]]) [0, 0] =
            some ([5, 6], ⟨[5, 6], 0, 0, false⟩, 6) ∧ 2 < 6)) :=
  ⟨⟨by decide, by decide⟩,
    soundbuf_c6 4 (sndbuf_init 4) [[1, 2, 3]] [0, 0, 0, 0] [0, 1, 2, 3]
      ⟨[1, 2, 3, 0], 3, 0, false⟩ 3 (by decide) (by decide)⟩

/-- C7: a drain is a read-only snapshot of the ring: it leaves `ring` and
`ring_write` unchanged, resets `ring_has` to 0 after capturing it as the
returned count, and clears the flag. -/
theorem soundbuf_c7 (C : Nat) (s : SndBuf) (data frag : List Int) (s' : SndBuf)
    (cnt : Nat) (h : getNextFragment C s data = some (frag, s', cnt)) :
    s'.ring = s.ring ∧ s'.ring_write = s.ring_write ∧ s'.ring_has = 0 ∧
    s'.signalled = false ∧ cnt = s.ring_has := by
  obtain ⟨-, hs', hcnt⟩ := getNextFragment_some C s data frag s' cnt h
  rw [hs']
  exact ⟨rfl, rfl, rfl, rfl, hcnt⟩

/-- C7 witness: `C = 2`, a signalled state with pending count 9. -/
theorem soundbuf_c7_witness :
    (getNextFragment 2 ⟨[7, 8], 1, 9, true⟩ [0, 0] =
      some ([8, 7], ⟨[7, 8], 1, 0, false⟩, 9))
    ∧ ((⟨[7, 8], 1, 0, false⟩ : SndBuf).ring = (⟨[7, 8], 1, 9, true⟩ : SndBuf).ring
        ∧ (⟨[7, 8], 1, 0, false⟩ : SndBuf).ring_write =
            (⟨[7, 8], 1, 9, true⟩ : SndBuf).ring_write
        ∧ (⟨[7, 8], 1, 0, false⟩ : SndBuf).ring_has = 0
        ∧ (⟨[7, 8], 1, 0, false⟩ : SndBuf).signalled = false
        ∧ (9 : Nat) = (⟨[7, 8], 1, 9, true⟩ : SndBuf).ring_has) :=
  ⟨by decide,
    soundbuf_c7 2 ⟨[7, 8], 1, 9, true⟩ [0, 0] [8, 7] ⟨[7, 8], 1, 0, false⟩ 9 (by decide)⟩

/-- C8: in every state reachable from the initial state, an unset flag means
the pending count is below the threshold; a store sets the flag exactly when
the flag was set or the updated count reaches the threshold; a drain clears
the flag; and the flag is always in one of the two states set/unset. -/
theorem soundbuf_c8 (C : Nat) (s : SndBuf) (hC : 0 < MIN_NEW_SAMPLES C)
    (hreach : Reachable C s) :
    (s.signalled = false → s.ring_has < MIN_NEW_SAMPLES C)
    ∧ (∀ (t : SndBuf) (input : List Int), (sndbuf_store C t input).1.signalled =
        (t.signalled || decide (MIN_NEW_SAMPLES C ≤ (t.ring_has + input.length) % UINT_MOD)))
    ∧ (∀ (t : SndBuf) (d frag : List Int) (t' : SndBuf) (cnt : Nat),
        getNextFragment C t d = some (frag, t', cnt) → t'.signalled = false)
    ∧ (s.signalled = false ∨ s.signalled = true) := by
  refine ⟨reachable_not_signalled C hC s hreach, sndbuf_store_signalled C, ?_, ?_⟩
  · intro t d frag t' cnt h
    obtain ⟨-, ht', -⟩ := getNextFragment_some C t d frag t' cnt h
    rw [ht']
  · cases s.signalled
    · exact Or.inl rfl
    · exact Or.inr rfl

/-- C8 witness: the initial channel at `C = 4`. -/
theorem soundbuf_c8_witness :
    (0 < MIN_NEW_SAMPLES 4 ∧ Reachable 4 (sndbuf_init 4))
    ∧ (((sndbuf_init 4).signalled = false →
          (sndbuf_init 4).ring_has < MIN_NEW_SAMPLES 4)
        ∧ (∀ (t : SndBuf) (input : List Int), (sndbuf_store 4 t input).1.signalled =
            (t.signalled ||
              decide (MIN_NEW_SAMPLES 4 ≤ (t.ring_has + input.length) % UINT_MOD)))
        ∧ (∀ (t : SndBuf) (d frag : List Int) (t' : SndBuf) (cnt : Nat),
            getNextFragment 4 t d = some (frag, t', cnt) → t'.signalled = false)
        ∧ ((sndbuf_init 4).signalled = false ∨ (sndbuf_init 4).signalled = true)) :=
  ⟨⟨by decide, Reachable.init⟩,
    soundbuf_c8 4 (sndbuf_init 4) (by decide) Reachable.init⟩

/-- C9: under the invariant (`len` = length of `input`, cursor in range,
ring of size `C`), both operations are total: the bounds-checked versions
agree with the unchecked ones (no access is out of range), and the store
preserves the cursor invariant and the ring size. -/
theorem soundbuf_c9 (C : Nat) (s : SndBuf) (input data : List Int)
    (hC : 0 < C) (hr : s.ring.length = C) (hw : s.ring_write < C)
    (hd : data.length = C) :
    sndbuf_storeChecked C s input = some (sndbuf_store C s input)
    ∧ (sndbuf_store C s input).1.ring_write < C
    ∧ (sndbuf_store C s input).1.ring.length = C
    ∧ getNextFragmentChecked C s data = getNextFragment C s data :=
  ⟨sndbuf_storeChecked_eq C s input hr hw,
    sndbuf_store_ring_write_lt C s input hC hw,
    by rw [sndbuf_store_ring_length, hr],
    getNextFragmentChecked_eq C s data hr hw hd⟩

/-- C9 witness: `C = 2`, a signalled state, an overrun-length batch. -/
theorem soundbuf_c9_witness :
    (0 < 2 ∧ (⟨[1, 2], 1, 3, true⟩ : SndBuf).ring.length = 2 ∧
      (⟨[1, 2], 1, 3, true⟩ : SndBuf).ring_write < 2 ∧
      ([0, 0] : List Int).length = 2)
    ∧ (sndbuf_storeChecked 2 ⟨[1, 2], 1, 3, true⟩ [5, 6, 7] =
          some (sndbuf_store 2 ⟨[1, 2], 1, 3, true⟩ [5, 6, 7])
        ∧ (sndbuf_store 2 ⟨[1, 2], 1, 3, true⟩ [5, 6, 7]).1.ring_write < 2
        ∧ (sndbuf_store 2 ⟨[1, 2], 1, 3, true⟩ [5, 6, 7]).1.ring.length = 2
        ∧ getNextFragmentChecked 2 ⟨[1, 2], 1, 3, true⟩ [0, 0] =
            getNextFragment 2 ⟨[1, 2], 1, 3, true⟩ [0, 0]) :=
  ⟨⟨by decide, by decide, by decide, by decide⟩,
    soundbuf_c9 2 ⟨[1, 2], 1, 3, true⟩ [5, 6, 7] [0, 0]
      (by decide) (by decide) (by decide) (by decide)⟩

/-- C10: every fragment has length exactly `C` however few samples arrived;
when fewer than `C` samples are stored between two consecutive drains, the
later fragment starts with the old samples again — it equals the previous
fragment shifted by the stored total, followed by the new samples. -/
theorem soundbuf_c10 (C : Nat) (s : SndBuf) (batches : List (List Int))
    (data₁ data₂ frag₁ frag₂ : List Int) (s₁ s₂ : SndBuf) (cnt₁ cnt₂ : Nat)
    (hC : 0 < C) (hr : s.ring.length = C) (hw : s.ring_write < C)
    (hd₁ : data₁.length = C) (hd₂ : data₂.length = C)
    (ht : batches.flatten.length < C)
    (h₁ : getNextFragment C s data₁ = some (frag₁, s₁, cnt₁))
    (h₂ : getNextFragment C (storeAll C s₁ batches) data₂ = some (frag₂, s₂, cnt₂)) :
    frag₂.length = C
    ∧ frag₂ = frag₁.drop batches.flatten.length ++ batches.flatten
    ∧ ∀ i, i < C - batches.flatten.length →
        frag₂[i]? = frag₁[i + batches.flatten.length]? := by
  obtain ⟨hsig1, hs1, -⟩ := getNextFragment_some C s data₁ frag₁ s₁ cnt₁ h₁
  rw [getNextFragment_eq C s data₁ hsig1 hr hw hd₁, Option.some.injEq,
    Prod.mk.injEq] at h₁
  have hfrag1 : frag₁ = drainData s := h₁.1.symm
  have hlen1 : frag₁.length = C := by
    rw [hfrag1, drainData_length C s hr (le_of_lt hw)]
  have hr1 : s₁.ring.length = C := by rw [hs1]; exact hr
  have hw1 : s₁.ring_write < C := by rw [hs1]; exact hw
  have hrf : (storeAll C s₁ batches).ring.length = C := by
    rw [storeAll_ring_length, hr1]
  have hwf := storeAll_ring_write_lt C batches hC _ hw1
  obtain ⟨hsig2, -, -⟩ := getNextFragment_some C _ data₂ frag₂ s₂ cnt₂ h₂
  rw [getNextFragment_eq C _ data₂ hsig2 hrf hwf hd₂, Option.some.injEq,
    Prod.mk.injEq] at h₂
  have hd1s : drainData s₁ = drainData s := by
    rw [hs1]
    rfl
  have hmain : frag₂ = frag₁.drop batches.flatten.length ++ batches.flatten := by
    rw [← h₂.1, drainData_storeAll C batches s₁ hC hr1 hw1, hd1s, ← hfrag1, lastN]
    have e1 : (frag₁ ++ batches.flatten).length - C = batches.flatten.length := by
      rw [List.length_append, hlen1]
      omega
    rw [e1, List.drop_append_of_le_length (by rw [hlen1]; omega)]
  refine ⟨?_, hmain, ?_⟩
  · rw [hmain, List.length_append, List.length_drop, hlen1]
    omega
  · intro i hi
    rw [hmain,
      List.getElem?_append_left (by rw [List.length_drop, hlen1]; omega),
      List.getElem?_drop]
    congr 1
    omega

/-- C10 witness: `C = 2`, one sample stored between two drains; the second
fragment repeats the last old sample. -/
theorem soundbuf_c10_witness :
    (0 < 2 ∧ (⟨[1, 2], 0, 5, true⟩ : SndBuf).ring.length = 2 ∧
      (⟨[1, 2], 0, 5, true⟩ : SndBuf).ring_write < 2 ∧
      ([0, 0] : List Int).length = 2 ∧ ([0, 0] : List Int).length = 2 ∧
      ([[9]] : List (List Int)).flatten.length < 2 ∧
      getNextFragment 2 ⟨[1, 2], 0, 5, true⟩ [0, 0] =
        some ([1, 2], ⟨[1, 2], 0, 0, false⟩, 5) ∧
      getNextFragment 2 (storeAll 2 ⟨[1, 2], 0, 0, false⟩ [[9]]) [0, 0] =
        some ([2, 9], ⟨[9, 2], 1, 0, false⟩, 1))
    ∧ (([2, 9] : List Int).length = 2
        ∧ ([2, 9] : List Int) =
            ([1, 2] : List Int).drop ([[9]] : List (List Int)).flatten.length ++
              ([[9]] : List (List Int)).flatten
        ∧ ∀ i, i < 2 - ([[9]] : List (List Int)).flatten.length →
            ([2, 9] : List Int)[i]? =
              ([1, 2] : List Int)[i + ([[9]] : List (List Int)).flatten.length]?) :=
  ⟨⟨by decide, by decide, by decide, by decide, by decide, by decide, by decide, by decide⟩,
    soundbuf_c10 2 ⟨[1, 2], 0, 5, true⟩ [[9]] [0, 0] [0, 0] [1, 2] [2, 9]
      ⟨[1, 2], 0, 0, false⟩ ⟨[9, 2], 1, 0, false⟩ 5 1
      (by decide) (by decide) (by decide) (by decide) (by decide) (by decide)
      (by decide) (by decide)⟩

end Soundbuf
